import Mathlib

/-!
Verification of the processor-pipeline specification of the avatar Python
client.  The repository sources available here contain only documentation,
notebooks and changelogs; the `avatars.processors` module, the pipeline
orchestrator and the job poller themselves are not present.  Each definition
below is therefore modelled from the specification text, as its doc comment
records.  Numeric columns are modelled over `ℚ` (the engine works on exact
decimal data frames; floating point is out of scope), categorical columns
over `String`, and tables as lists of columns.
-/

namespace Avatar

/-- Modelled from the spec: rounding to `d` decimal places (the
`decimal_count` option of `ProportionProcessor`, whose implementation in
`avatars/processors/proportions.py` is absent from the sources).  Round half
up at the `d`-th decimal. -/
def roundTo (d : ℕ) (x : ℚ) : ℚ :=
  (⌊x * 10 ^ d + 1 / 2⌋ : ℤ) / (10 ^ d : ℚ)

/-- Modelled from the spec: optional decimal rounding; `none` means the
rounding option is off and values are kept exact. -/
def applyRound : Option ℕ → ℚ → ℚ
  | none, x => x
  | some d, x => roundTo d x

/-- Modelled from the spec: the proportion of a component `x` against a
reference `r`, with the documented zero-reference edge case: a reference
value of zero makes the proportion undefined, and the processor emits the
sentinel value zero for that row instead of a division error. -/
def propOf (x r : ℚ) : ℚ :=
  if r = 0 then 0 else x / r

/-- Modelled from the spec: the table shape consumed by
`ProportionProcessor`: one reference column and the listed component
columns, in listed order (the `reference` and `variable_names` arguments of
the missing `avatars/processors/proportions.py`). -/
structure PropTable where
  ref : List ℚ
  comps : List (List ℚ)
deriving DecidableEq, Repr

/-- Modelled from the spec: per-row sums across a list of columns, all of
length `n` (used to absorb the rounding remainder on the designated
component). -/
def rowSums (cols : List (List ℚ)) (n : ℕ) : List ℚ :=
  cols.foldr (List.zipWith (· + ·)) (List.replicate n 0)

/-- Modelled from the spec: the configuration of the missing
`ProportionProcessor` (`avatars/processors/proportions.py`): whether the
component proportions are forced to sum to one, and the decimal rounding
precision option. -/
structure ProportionProcessor where
  sum_to_one : Bool
  decimal_count : Option ℕ
deriving DecidableEq, Repr

/-- Modelled from the spec: `ProportionProcessor.preprocess` replaces each
listed component column with its proportion of the reference column
(`component / reference`), with sentinel zero where the reference is
zero. -/
def ProportionProcessor.preprocess (_P : ProportionProcessor) (T : PropTable) :
    PropTable :=
  ⟨T.ref, T.comps.map (fun c => List.zipWith propOf c T.ref)⟩

/-- Modelled from the spec: `ProportionProcessor.postprocess` multiplies the
avatarized proportions back by the reference column of `dest` (re-derived
from `dest`, not from `source`, because the reference itself was
avatarized), applying the decimal rounding option.  With `sum_to_one` set,
the designated last-listed component instead absorbs the whole rounding
remainder: it is recomputed as the reference minus the sum of the other
reconstructed components, so the components sum to the reference exactly. -/
def ProportionProcessor.postprocess (P : ProportionProcessor)
    (_source dest : PropTable) : PropTable :=
  if P.sum_to_one then
    let others := dest.comps.dropLast.map
      (fun c => List.zipWith (fun p r => applyRound P.decimal_count (p * r)) c dest.ref)
    ⟨dest.ref, others ++ [List.zipWith (· - ·) dest.ref (rowSums others dest.ref.length)]⟩
  else
    ⟨dest.ref, dest.comps.map
      (fun c => List.zipWith (fun p r => applyRound P.decimal_count (p * r)) c dest.ref)⟩

/-- Modelled from the spec: the table shape consumed by
`RelativeDifferenceProcessor` (missing
`avatars/processors/relative_difference.py`): the combined reference column
and the target column.  The spec leaves the combination rule for several
references open; the claims only exercise a single reference, modelled
directly as `ref`. -/
structure RelTable where
  ref : List ℚ
  target : List ℚ
deriving DecidableEq, Repr

/-- Modelled from the spec: `RelativeDifferenceProcessor.preprocess`
replaces the target with the non-negative remainder `reference - target`. -/
def RelativeDifferenceProcessor.preprocess (T : RelTable) : RelTable :=
  ⟨T.ref, List.zipWith (· - ·) T.ref T.target⟩

/-- Modelled from the spec: the per-row restoration rule of
`RelativeDifferenceProcessor.postprocess`: recompute
`reference_avatarized - remainder_avatarized`, clip the value at zero when
it would be negative, and never let the restored target exceed the restored
reference (so a negative avatarized remainder is in effect clipped to zero
and the target capped at the reference). -/
def RelativeDifferenceProcessor.restore (r m : ℚ) : ℚ :=
  min r (max 0 (r - m))

/-- Modelled from the spec: `RelativeDifferenceProcessor.postprocess`
applies the restoration rule row by row, taking both the avatarized
reference and the avatarized remainder from `dest`. -/
def RelativeDifferenceProcessor.postprocess (_source dest : RelTable) : RelTable :=
  ⟨dest.ref, List.zipWith RelativeDifferenceProcessor.restore dest.ref dest.target⟩

/-- Modelled from the spec: the state learned by
`DatetimeProcessor.preprocess` (missing `avatars/processors/datetime.py`):
the per-column anchor subtracted from every datetime value.  Datetimes are
modelled as integer epoch values; the anchor of a column is its earliest
value. -/
def DatetimeProcessor.anchor (col : List ℤ) : ℤ :=
  col.foldr min 0

/-- Modelled from the spec: `DatetimeProcessor.preprocess` converts each
datetime column to a numeric representation anchored to a fixed epoch
(value minus the stored anchor), preserving differences and relative
magnitude. -/
def DatetimeProcessor.preprocess (col : List ℤ) : List ℤ :=
  col.map (fun t => t - DatetimeProcessor.anchor col)

/-- Modelled from the spec: `DatetimeProcessor.postprocess` converts a
numeric column flagged as datetime-origin back into datetime values by
adding the stored anchor. -/
def DatetimeProcessor.postprocess (a : ℤ) (col : List ℤ) : List ℤ :=
  col.map (fun n => n + a)

/-- Modelled from the spec: the numeric branch of
`PerturbationProcessor.postprocess` (missing
`avatars/processors/perturbation.py`): per row, the weighted interpolation
`level * dest + (1 - level) * source` between the original and the
avatarized value. -/
def PerturbationProcessor.postNum (level : ℚ) (src dest : List ℚ) : List ℚ :=
  List.zipWith (fun s d => level * d + (1 - level) * s) src dest

/-- Modelled from the spec: the categorical branch of
`PerturbationProcessor.postprocess`: per row, a Bernoulli random choice
between the source and the dest value, picking the dest value with
probability `level`.  The random draws, uniform on `[0, 1)`, are passed
explicitly as `us`; row `i` picks the dest value exactly when
`us i < level`. -/
def PerturbationProcessor.postCat (level : ℚ) :
    List ℚ → List String → List String → List String
  | u :: us, s :: ss, d :: ds =>
      (if u < level then d else s) :: PerturbationProcessor.postCat level us ss ds
  | _, _, _ => []

/-- Modelled from the spec: `PerturbationProcessor.preprocess` is a no-op;
the blending happens only at postprocess. -/
def PerturbationProcessor.preprocess (col : List ℚ) : List ℚ := col

/-- Modelled from the spec: the values of group `g` in a table of
(group key, target value) rows, as consumed by `ExpectedMeanProcessor`
(missing `avatars/processors/expected_mean.py`). -/
def groupVals {G : Type} [DecidableEq G] (t : List (G × ℚ)) (g : G) : List ℚ :=
  (t.filter (fun p => decide (p.1 = g))).map Prod.snd

/-- Modelled from the spec: the mean of a target column within one group of
the grouping key, as recorded by `ExpectedMeanProcessor` from the original
table and recomputed on the avatarized table. -/
def groupMean {G : Type} [DecidableEq G] (t : List (G × ℚ)) (g : G) : ℚ :=
  (groupVals t g).sum / ((groupVals t g).length : ℚ)

/-- Modelled from the spec: the population variance of a target column
within one group (the squared standard deviation used by the `same_std`
option of `ExpectedMeanProcessor`). -/
def groupVar {G : Type} [DecidableEq G] (t : List (G × ℚ)) (g : G) : ℚ :=
  ((groupVals t g).map (fun x => (x - groupMean t g) ^ 2)).sum /
    ((groupVals t g).length : ℚ)

/-- Modelled from the spec: `ExpectedMeanProcessor.preprocess` is a no-op
pass-through: it only records the per-group statistics of the original
table, which in this model are recomputed from the `source` argument of
postprocess. -/
def ExpectedMeanProcessor.preprocess {G : Type} (t : List (G × ℚ)) :
    List (G × ℚ) := t

/-- Modelled from the spec: `ExpectedMeanProcessor.postprocess` with
`same_std` off: a mean-only shift moving each avatarized value by the
difference between the original group mean and the avatarized group
mean. -/
def ExpectedMeanProcessor.postprocess {G : Type} [DecidableEq G]
    (src dest : List (G × ℚ)) : List (G × ℚ) :=
  dest.map (fun p => (p.1, p.2 - groupMean dest p.1 + groupMean src p.1))

/-- Modelled from the spec: `ExpectedMeanProcessor.postprocess` with
`same_std` set: the affine transform
`x = (x - mean_avatar) / std_avatar * std_original + mean_original`.  The
per-group rescaling factor `std_original / std_avatar` is passed as `f`
(square roots leave `ℚ`); it is characterized by
`f g ^ 2 * groupVar dest g = groupVar src g`. -/
def ExpectedMeanProcessor.postprocessStd {G : Type} [DecidableEq G]
    (f : G → ℚ) (src dest : List (G × ℚ)) : List (G × ℚ) :=
  dest.map (fun p => (p.1, (p.2 - groupMean dest p.1) * f p.1 + groupMean src p.1))

/-- Modelled from the spec: the configuration of the missing
`GroupModalitiesProcessor` (`avatars/processors/group_modalities.py`):
`min_unique` (number of distinct values for a column to be considered for
grouping), `global_threshold` (number of rows for a value to be preserved)
and the sentinel category label. -/
structure GroupModalitiesProcessor where
  min_unique : ℕ
  global_threshold : ℕ
  new_category : String
deriving DecidableEq, Repr

/-- Modelled from the spec: the replacement rule of
`GroupModalitiesProcessor`: a value occurring in fewer than
`global_threshold` rows of the column is replaced by the sentinel
category. -/
def GroupModalitiesProcessor.reduceValue (P : GroupModalitiesProcessor)
    (col : List String) (v : String) : String :=
  if col.count v < P.global_threshold then P.new_category else v

/-- Modelled from the spec: `GroupModalitiesProcessor.preprocess` on one
categorical column: when the distinct-value count exceeds `min_unique`,
every value below the frequency threshold is replaced by the sentinel
category; otherwise the column passes through unchanged. -/
def GroupModalitiesProcessor.preprocessCol (P : GroupModalitiesProcessor)
    (col : List String) : List String :=
  if P.min_unique < col.dedup.length then col.map (P.reduceValue col) else col

/-- Modelled from the spec: a pipeline processor instance over tables `T`
(the duck-typed preprocess/postprocess objects consumed by
`avatarization_pipeline_with_processors`, whose implementation in
`avatars/client.py` is absent from the sources).  `St` is the state the
instance learns during preprocess and consumes during postprocess;
`post` receives that state, the source table and the dest table. -/
structure Processor (T : Type) where
  St : Type
  pre : T → T × St
  post : St → T → T → T

/-- Modelled from the spec: the preprocess fold of the pipeline
orchestrator: apply `pre` of each processor in listed order, carrying the
transformed table forward and collecting each instance together with its
learned state. -/
def applyPre {T : Type} : List (Processor T) → T → T × List ((p : Processor T) × p.St)
  | [], t => (t, [])
  | p :: rest, t =>
      let r1 := p.pre t
      let r2 := applyPre rest r1.1
      (r2.1, ⟨p, r1.2⟩ :: r2.2)

/-- Modelled from the spec: the postprocess fold of the pipeline
orchestrator: apply `post` of each collected instance in reverse listed
order, each call receiving the original pre-pipeline table as its source
argument and the running dest table. -/
def applyPost {T : Type} (orig : T) :
    List ((p : Processor T) × p.St) → T → T
  | [], dest => dest
  | s :: rest, dest => s.1.post s.2 orig (applyPost orig rest dest)

/-- Modelled from the spec: a full pipeline run: fold preprocess over the
processors in listed order, submit the result to the remote engine
(abstracted as `avatarize`), then fold postprocess in reverse order with
the original table as the source argument. -/
def runPipeline {T : Type} (avatarize : T → T) (ps : List (Processor T))
    (orig : T) : T :=
  let r := applyPre ps orig
  applyPost orig r.2 (avatarize r.1)

/-- Modelled from the spec: the status enum of a remote job, as exposed by
the missing `avatars/client.py` job API. -/
inductive JobStatus where
  | pending
  | running
  | success
  | failure
  | cancelled
deriving DecidableEq, Repr

/-- Modelled from the spec: whether a job status is terminal; polling stops
on a terminal status and a definitive failure is surfaced, not retried. -/
def JobStatus.isTerminal : JobStatus → Bool
  | .success => true
  | .failure => true
  | .cancelled => true
  | _ => false

/-- Modelled from the spec: the result of one `poll` call of the job poller
(the `get_job` retry mechanism of the missing `avatars/client.py`):
either the terminal status of the job, or the still-running signal returned
when the global timeout elapses first — a come-back-later signal, not an
error. -/
inductive PollOutcome where
  | finished (s : JobStatus)
  | stillRunning
deriving DecidableEq, Repr

/-- Modelled from the spec: the bounded-retry polling loop.  `server` gives
the job status at each time step (the job keeps running server-side between
calls); `start` is the current time step and `fuel` the number of status
queries the global timeout still allows (global timeout divided by the
per-request budget).  When fuel runs out with the job not yet terminal, the
call returns the still-running signal rather than an error. -/
def poll (server : ℕ → JobStatus) : ℕ → ℕ → PollOutcome
  | _, 0 => .stillRunning
  | start, fuel + 1 =>
      if (server start).isTerminal then .finished (server start)
      else poll server (start + 1) fuel

/-! Helper lemmas about list indexing with defaults. -/

theorem getD_map_of_lt {α β : Type} (f : α → β) (l : List α) (j : ℕ)
    (h : j < l.length) (da : α) (db : β) :
    (l.map f).getD j db = f (l.getD j da) := by
  rw [List.getD_eq_getElem _ _ (by rw [List.length_map]; exact h),
    List.getD_eq_getElem _ _ h, List.getElem_map]

theorem getD_zipWith_of_lt {α β γ : Type} (f : α → β → γ) (a : List α)
    (b : List β) (j : ℕ) (ha : j < a.length) (hb : j < b.length)
    (da : α) (db : β) (dc : γ) :
    (List.zipWith f a b).getD j dc = f (a.getD j da) (b.getD j db) := by
  have hz : j < (List.zipWith f a b).length := by
    rw [List.length_zipWith]; exact lt_min ha hb
  rw [List.getD_eq_getElem _ _ hz, List.getD_eq_getElem _ _ ha,
    List.getD_eq_getElem _ _ hb, List.getElem_zipWith]

theorem getD_replicate_zero (n j : ℕ) : (List.replicate n (0 : ℚ)).getD j 0 = 0 := by
  induction n generalizing j with
  | zero => simp
  | succ n ih =>
      cases j with
      | zero => simp [List.replicate_succ]
      | succ j => rw [List.replicate_succ, List.getD_cons_succ]; exact ih j

theorem length_rowSums (cols : List (List ℚ)) (n : ℕ)
    (h : ∀ c ∈ cols, c.length = n) : (rowSums cols n).length = n := by
  induction cols with
  | nil => simp [rowSums]
  | cons c cols ih =>
      have hc : c.length = n := h c (by simp)
      have ih2 := ih (fun c hc => h c (by simp [hc]))
      have hstep : rowSums (c :: cols) n = List.zipWith (· + ·) c (rowSums cols n) := rfl
      rw [hstep, List.length_zipWith, hc, ih2, min_self]

theorem getD_rowSums (cols : List (List ℚ)) (n j : ℕ)
    (h : ∀ c ∈ cols, c.length = n) (hj : j < n) :
    (rowSums cols n).getD j 0 = (cols.map (fun c => c.getD j 0)).sum := by
  induction cols with
  | nil => simp [rowSums, getD_replicate_zero]
  | cons c cols ih =>
      have hc : c.length = n := h c (by simp)
      have hrest : ∀ x ∈ cols, x.length = n := fun x hx => h x (by simp [hx])
      have hlen : (rowSums cols n).length = n := length_rowSums cols n hrest
      have hstep : rowSums (c :: cols) n = List.zipWith (· + ·) c (rowSums cols n) := rfl
      rw [hstep, getD_zipWith_of_lt _ _ _ _ (by rw [hc]; exact hj)
        (by rw [hlen]; exact hj) 0 0 0, ih hrest, List.map_cons, List.sum_cons]

/-! Helper lemmas about the rounding function. -/

theorem abs_roundTo_sub_le (d : ℕ) (x : ℚ) :
    |roundTo d x - x| ≤ 1 / (2 * 10 ^ d) := by
  have hpow : (0 : ℚ) < 10 ^ d := by positivity
  have h1 : (⌊x * 10 ^ d + 1 / 2⌋ : ℚ) ≤ x * 10 ^ d + 1 / 2 := Int.floor_le _
  have h2 : x * 10 ^ d + 1 / 2 - 1 < (⌊x * 10 ^ d + 1 / 2⌋ : ℚ) :=
    Int.sub_one_lt_floor _
  have habs : |(⌊x * 10 ^ d + 1 / 2⌋ : ℚ) - x * 10 ^ d| ≤ 1 / 2 := by
    rw [abs_le]; constructor <;> linarith
  have heq : roundTo d x - x =
      ((⌊x * 10 ^ d + 1 / 2⌋ : ℚ) - x * 10 ^ d) / 10 ^ d := by
    rw [roundTo, sub_div]
    congr 1
    rw [mul_div_cancel_right₀ _ (ne_of_gt hpow)]
  rw [heq, abs_div, abs_of_pos hpow, div_le_div_iff₀ hpow (by positivity)]
  calc |(⌊x * 10 ^ d + 1 / 2⌋ : ℚ) - x * 10 ^ d| * (2 * 10 ^ d)
      ≤ (1 / 2) * (2 * 10 ^ d) := mul_le_mul_of_nonneg_right habs (by positivity)
    _ = 1 * 10 ^ d := by ring

/-! Helper lemmas about zipWith projections. -/

theorem zipWith_proj_left {α β : Type} (f : α → β → α) (a : List α) (b : List β)
    (hf : ∀ s d, f s d = s) (hlen : b.length = a.length) :
    List.zipWith f a b = a := by
  induction a generalizing b with
  | nil => simp
  | cons x xs ih =>
      cases b with
      | nil => simp at hlen
      | cons y ys =>
          simp only [List.zipWith_cons_cons, hf]
          rw [ih ys (by simpa using hlen)]

theorem zipWith_proj_right {α β : Type} (f : α → β → β) (a : List α) (b : List β)
    (hf : ∀ s d, f s d = d) (hlen : b.length = a.length) :
    List.zipWith f a b = b := by
  induction a generalizing b with
  | nil => cases b with
      | nil => rfl
      | cons y ys => simp at hlen
  | cons x xs ih =>
      cases b with
      | nil => simp
      | cons y ys =>
          simp only [List.zipWith_cons_cons, hf]
          rw [ih ys (by simpa using hlen)]

/-! Helper lemmas for the proportion round trip. -/

theorem prop_roundtrip_col (c r : List ℚ) (hr : ∀ v ∈ r, v ≠ 0)
    (hlen : c.length = r.length) :
    List.zipWith (fun p v => p * v) (List.zipWith propOf c r) r = c := by
  induction c generalizing r with
  | nil => simp
  | cons x xs ih =>
      cases r with
      | nil => simp at hlen
      | cons v vs =>
          have hv : v ≠ 0 := hr v (by simp)
          simp only [List.zipWith_cons_cons]
          rw [ih vs (fun w hw => hr w (by simp [hw])) (by simpa using hlen)]
          congr 1
          rw [propOf, if_neg hv, div_mul_cancel₀ _ hv]

/-! Helper lemmas for the group-modalities processor. -/

theorem count_le_count_map (l : List String) (f : String → String) (v : String)
    (hfix : f v = v) : l.count v ≤ (l.map f).count v := by
  induction l with
  | nil => simp
  | cons a l ih =>
      by_cases ha : a = v
      · subst ha
        simp only [List.map_cons, List.count_cons, hfix]
        omega
      · have hne : (a == v) = false := by simpa using ha
        simp only [List.map_cons, List.count_cons, hne]
        by_cases hb : f a = v
        · simp only [hb, beq_self_eq_true, if_true, if_false, Bool.false_eq_true]
          omega
        · have hnb : (f a == v) = false := by simpa using hb
          simp only [hnb, if_false, Bool.false_eq_true]
          omega

theorem reduceValue_fixed_on_reduced (P : GroupModalitiesProcessor)
    (col : List String) (w : String) (hw : w ∈ col.map (P.reduceValue col)) :
    P.reduceValue (col.map (P.reduceValue col)) w = w := by
  obtain ⟨v, hv, rfl⟩ := List.mem_map.mp hw
  by_cases hcnt : col.count v < P.global_threshold
  · have hpos : P.reduceValue col v = P.new_category := by
      rw [GroupModalitiesProcessor.reduceValue, if_pos hcnt]
    rw [hpos, GroupModalitiesProcessor.reduceValue, ite_self]
  · have hfix : P.reduceValue col v = v := by
      rw [GroupModalitiesProcessor.reduceValue, if_neg hcnt]
    rw [hfix]
    have hle : col.count v ≤ (col.map (P.reduceValue col)).count v :=
      count_le_count_map col (P.reduceValue col) v hfix
    rw [GroupModalitiesProcessor.reduceValue, if_neg (by omega)]

/-! Helper lemmas for the perturbation processor. -/

theorem getD_postCat (level : ℚ) :
    ∀ (us : List ℚ) (cs cd : List String) (j : ℕ),
      j < us.length → j < cs.length → j < cd.length →
      (PerturbationProcessor.postCat level us cs cd).getD j "" =
        if us.getD j 0 < level then cd.getD j "" else cs.getD j "" := by
  intro us
  induction us with
  | nil => intro cs cd j h1 _ _; simp at h1
  | cons u us ih =>
      intro cs cd j h1 h2 h3
      cases cs with
      | nil => simp at h2
      | cons s ss =>
          cases cd with
          | nil => simp at h3
          | cons d ds =>
              cases j with
              | zero => simp [PerturbationProcessor.postCat]
              | succ j =>
                  show (((if u < level then d else s) ::
                    PerturbationProcessor.postCat level us ss ds)).getD (j + 1) "" = _
                  rw [List.getD_cons_succ, List.getD_cons_succ, List.getD_cons_succ,
                    List.getD_cons_succ]
                  exact ih ss ds j (by simpa using h1) (by simpa using h2)
                    (by simpa using h3)

theorem postCat_level_zero :
    ∀ (us : List ℚ) (cs cd : List String), (∀ u ∈ us, 0 ≤ u) →
      us.length = cs.length → cd.length = cs.length →
      PerturbationProcessor.postCat 0 us cs cd = cs := by
  intro us
  induction us with
  | nil =>
      intro cs cd _ hlen _
      cases cs with
      | nil => rfl
      | cons s ss => simp at hlen
  | cons u us ih =>
      intro cs cd hu hlen1 hlen2
      cases cs with
      | nil => simp at hlen1
      | cons s ss =>
          cases cd with
          | nil => simp at hlen2
          | cons d ds =>
              show (if u < 0 then d else s) :: _ = s :: ss
              rw [if_neg (not_lt.mpr (hu u (by simp)))]
              exact congrArg (s :: ·) (ih ss ds (fun v hv => hu v (by simp [hv]))
                (by simpa using hlen1) (by simpa using hlen2))

theorem postCat_level_one :
    ∀ (us : List ℚ) (cs cd : List String), (∀ u ∈ us, u < 1) →
      us.length = cs.length → cd.length = cs.length →
      PerturbationProcessor.postCat 1 us cs cd = cd := by
  intro us
  induction us with
  | nil =>
      intro cs cd _ hlen1 hlen2
      cases cs with
      | nil => cases cd with
          | nil => rfl
          | cons d ds => simp at hlen2
      | cons s ss => simp at hlen1
  | cons u us ih =>
      intro cs cd hu hlen1 hlen2
      cases cs with
      | nil => simp at hlen1
      | cons s ss =>
          cases cd with
          | nil => simp at hlen2
          | cons d ds =>
              show (if u < 1 then d else s) :: _ = d :: ds
              rw [if_pos (hu u (by simp))]
              exact congrArg (d :: ·) (ih ss ds (fun v hv => hu v (by simp [hv]))
                (by simpa using hlen1) (by simpa using hlen2))

/-! Helper lemmas for the expected-mean processor. -/

theorem groupVals_map_eq {G : Type} [DecidableEq G] (t : List (G × ℚ))
    (h : G → ℚ → ℚ) (g : G) :
    groupVals (t.map (fun p => (p.1, h p.1 p.2))) g = (groupVals t g).map (h g) := by
  induction t with
  | nil => rfl
  | cons p t ih =>
      show List.map Prod.snd (List.filter (fun q => decide (q.1 = g))
          ((p.1, h p.1 p.2) :: t.map (fun q => (q.1, h q.1 q.2)))) =
        (List.map Prod.snd (List.filter (fun q => decide (q.1 = g)) (p :: t))).map
          (h g)
      rw [List.filter_cons, List.filter_cons]
      by_cases hg : p.1 = g
      · rw [if_pos (by simpa using hg), if_pos (by simpa using hg),
          List.map_cons, List.map_cons, List.map_cons, hg]
        exact congrArg (h g p.2 :: ·) ih
      · rw [if_neg (by simpa using hg), if_neg (by simpa using hg)]
        exact ih

theorem sum_map_affine (l : List ℚ) (a fq b : ℚ) :
    (l.map (fun x => (x - a) * fq + b)).sum =
      (l.sum - l.length * a) * fq + l.length * b := by
  induction l with
  | nil => simp
  | cons x l ih =>
      simp only [List.map_cons, List.sum_cons, List.length_cons, ih]
      push_cast
      ring

theorem mean_map_affine (vals : List ℚ) (hv : vals ≠ []) (a fq b : ℚ)
    (ha : a = vals.sum / (vals.length : ℚ)) :
    (vals.map (fun x => (x - a) * fq + b)).sum /
      ((vals.map (fun x => (x - a) * fq + b)).length : ℚ) = b := by
  subst ha
  have hn : (vals.length : ℚ) ≠ 0 := by
    have hpos : 0 < vals.length := List.length_pos.mpr hv
    exact Nat.cast_ne_zero.mpr (by omega)
  rw [sum_map_affine, List.length_map]
  have hz : vals.sum - (vals.length : ℚ) * (vals.sum / vals.length) = 0 := by
    field_simp
  rw [hz, zero_mul, zero_add, mul_div_cancel_left₀ _ hn]

theorem var_map_affine (vals : List ℚ) (a fq b : ℚ) :
    ((vals.map (fun x => (x - a) * fq + b)).map (fun y => (y - b) ^ 2)).sum =
      fq ^ 2 * (vals.map (fun x => (x - a) ^ 2)).sum := by
  rw [List.map_map]
  have hcomp : ((fun y => (y - b) ^ 2) ∘ (fun x => (x - a) * fq + b)) =
      fun x => fq ^ 2 * ((x - a) ^ 2) := by
    funext x
    simp only [Function.comp_apply]
    ring
  rw [hcomp, List.sum_map_mul_left]

/-! Helper lemma for the relative-difference round trip. -/

theorem reldiff_roundtrip_col :
    ∀ (r t : List ℚ), t.length = r.length →
      (∀ j, j < r.length → 0 ≤ t.getD j 0 ∧ t.getD j 0 ≤ r.getD j 0) →
      List.zipWith RelativeDifferenceProcessor.restore r
        (List.zipWith (· - ·) r t) = t := by
  intro r
  induction r with
  | nil =>
      intro t hlen _
      cases t with
      | nil => rfl
      | cons x xs => simp at hlen
  | cons r0 rs ih =>
      intro t hlen hrow
      cases t with
      | nil => simp at hlen
      | cons t0 ts =>
          have h0 := hrow 0 (by simp)
          rw [List.getD_cons_zero, List.getD_cons_zero] at h0
          show RelativeDifferenceProcessor.restore r0 (r0 - t0) ::
            List.zipWith RelativeDifferenceProcessor.restore rs
              (List.zipWith (· - ·) rs ts) = t0 :: ts
          rw [ih ts (by simpa using hlen)
            (fun j hj => by
              have := hrow (j + 1) (by simpa using hj)
              rwa [List.getD_cons_succ, List.getD_cons_succ] at this)]
          rw [RelativeDifferenceProcessor.restore, sub_sub_cancel,
            max_eq_right h0.1, min_eq_right h0.2]

end Avatar

namespace Avatar

/-- C1 counterexample: the round-trip claim fails on tables outside the
domain of the proportion transform.  On a table whose reference entry is
zero, preprocess emits the sentinel 0 and postprocess multiplies it back by
the zero reference, so the component 1 comes back as 0, outside every
rounding tolerance; and with `sum_to_one` set, on a table whose components
do not sum to the reference, the designated component comes back as the
absorbed remainder 9 instead of the original 2. -/
theorem roundtrip_zero_reference_counterexample :
    ((ProportionProcessor.postprocess ⟨false, none⟩ ⟨[0], [[1]]⟩
        (ProportionProcessor.preprocess ⟨false, none⟩ ⟨[0], [[1]]⟩)).comps =
      [[0]]) ∧
    (([[1]] : List (List ℚ)) ≠ [[0]]) ∧
    (¬ (|(0 : ℚ) - 1| ≤ 1 / 2)) ∧
    ((ProportionProcessor.postprocess ⟨true, none⟩ ⟨[10], [[1], [2]]⟩
        (ProportionProcessor.preprocess ⟨true, none⟩ ⟨[10], [[1], [2]]⟩)).comps =
      [[1], [9]]) ∧
    (([2] : List ℚ) ≠ [9]) := by
  refine ⟨?_, by simp, by rw [abs_of_nonpos (by norm_num)]; norm_num, ?_, by simp⟩
  · simp only [ProportionProcessor.postprocess, ProportionProcessor.preprocess,
      propOf, applyRound, List.map, List.zipWith]
    norm_num
  · simp only [ProportionProcessor.postprocess, ProportionProcessor.preprocess,
      propOf, applyRound, rowSums, List.map, List.zipWith, List.dropLast,
      List.foldr, List.replicate, if_true]
    norm_num

/-- C1 (amended): round trips of the built-in reversible processors.
`ProportionProcessor` without sum-to-one and with every reference entry
nonzero reproduces the table exactly when rounding is off and within half
a unit in the last rounded decimal when rounding at `d` decimals is on;
`RelativeDifferenceProcessor` reproduces the table exactly when no
clipping occurs (every target between zero and its reference);
`DatetimeProcessor` reproduces the column exactly; `PerturbationProcessor`
with level 1 reproduces the column exactly. -/
theorem roundtrip_reversible_processors (d : ℕ) (T : PropTable) (R : RelTable)
    (dcol : List ℤ) (pcol : List ℚ)
    (hTref : ∀ r ∈ T.ref, r ≠ 0)
    (hTlen : ∀ c ∈ T.comps, c.length = T.ref.length)
    (hRlen : R.target.length = R.ref.length)
    (hRrow : ∀ j, j < R.ref.length →
      0 ≤ R.target.getD j 0 ∧ R.target.getD j 0 ≤ R.ref.getD j 0) :
    (ProportionProcessor.postprocess ⟨false, none⟩ T
      (ProportionProcessor.preprocess ⟨false, none⟩ T) = T) ∧
    (∀ i j, i < T.comps.length → j < T.ref.length →
      j < (T.comps.getD i []).length →
      |(((ProportionProcessor.postprocess ⟨false, some d⟩ T
          (ProportionProcessor.preprocess ⟨false, some d⟩ T)).comps.getD i
            []).getD j 0) - (T.comps.getD i []).getD j 0| ≤ 1 / (2 * 10 ^ d)) ∧
    (RelativeDifferenceProcessor.postprocess R
      (RelativeDifferenceProcessor.preprocess R) = R) ∧
    (DatetimeProcessor.postprocess (DatetimeProcessor.anchor dcol)
      (DatetimeProcessor.preprocess dcol) = dcol) ∧
    (PerturbationProcessor.postNum 1 pcol
      (PerturbationProcessor.preprocess pcol) = pcol) := by
  refine ⟨?_, ?_, ?_, ?_, ?_⟩
  · show (⟨T.ref, (T.comps.map (fun c => List.zipWith propOf c T.ref)).map
      (fun c => List.zipWith (fun p r => applyRound none (p * r)) c T.ref)⟩ :
        PropTable) = T
    obtain ⟨ref, comps⟩ := T
    simp only at hTref hTlen
    rw [List.map_map, PropTable.mk.injEq]
    refine ⟨rfl, ?_⟩
    have hid : ∀ c ∈ comps,
        ((fun c => List.zipWith (fun p r => applyRound none (p * r)) c ref) ∘
          (fun c => List.zipWith propOf c ref)) c = id c := by
      intro c hc
      have hc2 : List.zipWith (fun p r => applyRound none (p * r))
          (List.zipWith propOf c ref) ref =
          List.zipWith (fun p r => p * r) (List.zipWith propOf c ref) ref := by
        simp [applyRound]
      simp only [Function.comp_apply]
      rw [hc2]
      exact prop_roundtrip_col c ref hTref (hTlen c hc)
    rw [List.map_congr_left hid, List.map_id]
  · intro i j hi hj hjc
    have hmem : T.ref.getD j 0 ∈ T.ref := by
      rw [List.getD_eq_getElem _ _ hj]
      exact List.getElem_mem _
    have hr : T.ref.getD j 0 ≠ 0 := hTref _ hmem
    have hval : (((ProportionProcessor.postprocess ⟨false, some d⟩ T
        (ProportionProcessor.preprocess ⟨false, some d⟩ T)).comps.getD i
          []).getD j 0) = roundTo d ((T.comps.getD i []).getD j 0) := by
      show (((T.comps.map (fun c => List.zipWith propOf c T.ref)).map
        (fun c => List.zipWith (fun p r => applyRound (some d) (p * r)) c
          T.ref)).getD i []).getD j 0 = _
      rw [getD_map_of_lt _ _ i (by rw [List.length_map]; exact hi) [] [],
        getD_map_of_lt _ _ i hi [] [],
        getD_zipWith_of_lt _ _ _ j
          (by rw [List.length_zipWith]; exact lt_min hjc hj) hj 0 0 0,
        getD_zipWith_of_lt propOf _ _ j hjc hj 0 0 0,
        propOf, if_neg hr, div_mul_cancel₀ _ hr]
      rfl
    rw [hval]
    exact abs_roundTo_sub_le d _
  · show (⟨R.ref, List.zipWith RelativeDifferenceProcessor.restore R.ref
      (List.zipWith (· - ·) R.ref R.target)⟩ : RelTable) = R
    obtain ⟨ref, target⟩ := R
    simp only at hRlen hRrow
    rw [RelTable.mk.injEq]
    exact ⟨rfl, reldiff_roundtrip_col ref target hRlen hRrow⟩
  · rw [DatetimeProcessor.postprocess, DatetimeProcessor.preprocess,
      List.map_map]
    have hcomp : ((fun n => n + DatetimeProcessor.anchor dcol) ∘
        (fun t => t - DatetimeProcessor.anchor dcol)) = id := by
      funext t
      simp
    rw [hcomp, List.map_id]
  · exact zipWith_proj_right _ pcol pcol (fun s dd => by ring) rfl

/-- C1 witness: the four round trips at concrete one-row tables. -/
theorem roundtrip_reversible_processors_check :
    (∀ r ∈ ([4] : List ℚ), r ≠ 0) ∧
    (ProportionProcessor.postprocess ⟨false, none⟩ ⟨[4], [[3]]⟩
      (ProportionProcessor.preprocess ⟨false, none⟩ ⟨[4], [[3]]⟩) =
        ⟨[4], [[3]]⟩) ∧
    (RelativeDifferenceProcessor.postprocess ⟨[10], [4]⟩
      (RelativeDifferenceProcessor.preprocess ⟨[10], [4]⟩) = ⟨[10], [4]⟩) ∧
    (DatetimeProcessor.postprocess (DatetimeProcessor.anchor [5, 2])
      (DatetimeProcessor.preprocess [5, 2]) = [5, 2]) ∧
    (PerturbationProcessor.postNum 1 [7] (PerturbationProcessor.preprocess [7]) =
      [7]) := by
  have hTref : ∀ r ∈ ([4] : List ℚ), r ≠ 0 := by
    intro r hr
    fin_cases hr
    norm_num
  have hTlen : ∀ c ∈ ([[3]] : List (List ℚ)), c.length = ([4] : List ℚ).length := by
    intro c hc
    fin_cases hc
    rfl
  have hRrow : ∀ j, j < ([10] : List ℚ).length →
      0 ≤ ([4] : List ℚ).getD j 0 ∧ ([4] : List ℚ).getD j 0 ≤
        ([10] : List ℚ).getD j 0 := by
    intro j hj
    simp only [List.length_cons, List.length_nil] at hj
    have hj0 : j = 0 := by omega
    subst hj0
    constructor <;> norm_num [List.getD_cons_zero]
  have h := roundtrip_reversible_processors 0 ⟨[4], [[3]]⟩ ⟨[10], [4]⟩ [5, 2] [7]
    hTref hTlen rfl hRrow
  exact ⟨hTref, h.1, h.2.2.1, h.2.2.2.1, h.2.2.2.2⟩

/-- C2: for every pipeline run with an ordered list of processors `[A, B]`,
the orchestrator applies preprocess in the listed order (A then B), applies
postprocess in exactly the reverse order (B then A) using the same
processor instances — each `post` receives the state its own `pre`
produced — and passes the original pre-pipeline table as the source
argument of every postprocess call. -/
theorem pipeline_pre_order_post_reversed {T : Type} (A B : Processor T)
    (avatarize : T → T) (orig : T) :
    runPipeline avatarize [A, B] orig =
      A.post (A.pre orig).2 orig
        (B.post (B.pre (A.pre orig).1).2 orig
          (avatarize (B.pre (A.pre orig).1).1)) := rfl

/-- C3: `ProportionProcessor.preprocess` replaces each listed component
column with component divided by the reference column, and `postprocess`
multiplies the avatarized proportions by the reference taken from the dest
table; concretely, with `a = [100, 150]`, `b = [60, 90]`, reference `a` and
`sum_to_one = false`, preprocess yields `b = [0.6, 0.6]` and postprocess on
dest `a = [100, 150]`, `b = [0.6, 0.6]` restores `b = [60, 90]`. -/
theorem proportion_scenario_exact :
    (ProportionProcessor.preprocess ⟨false, none⟩ ⟨[100, 150], [[60, 90]]⟩ =
      ⟨[100, 150], [[6 / 10, 6 / 10]]⟩) ∧
    (ProportionProcessor.postprocess ⟨false, none⟩ ⟨[100, 150], [[60, 90]]⟩
      ⟨[100, 150], [[6 / 10, 6 / 10]]⟩ = ⟨[100, 150], [[60, 90]]⟩) := by
  constructor
  · simp only [ProportionProcessor.preprocess, propOf, List.map, List.zipWith]
    norm_num
  · simp only [ProportionProcessor.postprocess, applyRound, List.map, List.zipWith]
    norm_num

/-- C8: for every row of the input table whose reference value is zero,
`ProportionProcessor.preprocess` emits the sentinel value zero for the
component proportions of that row instead of a division-by-zero error;
the division helper maps every numerator over a zero reference to the
sentinel. -/
theorem proportion_zero_reference_sentinel (P : ProportionProcessor)
    (T : PropTable) (i j : ℕ) (hi : i < T.comps.length)
    (hj : j < T.ref.length) (hjc : j < (T.comps.getD i []).length)
    (h0 : T.ref.getD j 0 = 0) :
    (((P.preprocess T).comps.getD i []).getD j 0 = 0) ∧ ∀ x : ℚ, propOf x 0 = 0 := by
  refine ⟨?_, fun x => by rw [propOf, if_pos rfl]⟩
  show ((((T.comps.map (fun c => List.zipWith propOf c T.ref)))).getD i []).getD j 0 = 0
  rw [getD_map_of_lt _ _ _ hi [] [],
    getD_zipWith_of_lt propOf _ _ _ hjc hj 0 0 0, h0, propOf, if_pos rfl]

/-- C8 witness: the sentinel at a concrete table whose first reference row
is zero. -/
theorem proportion_zero_reference_sentinel_check :
    (0 < (([[7, 10]] : List (List ℚ))).length) ∧
    (0 < (([0, 5] : List ℚ)).length) ∧
    (0 < (([7, 10] : List ℚ)).length) ∧
    (([0, 5] : List ℚ).getD 0 0 = 0) ∧
    ((((ProportionProcessor.preprocess ⟨false, none⟩
        ⟨[0, 5], [[7, 10]]⟩).comps.getD 0 []).getD 0 0 = 0) ∧
      ∀ x : ℚ, propOf x 0 = 0) := by
  refine ⟨by norm_num, by norm_num, by norm_num, by simp, ?_⟩
  exact proportion_zero_reference_sentinel ⟨false, none⟩ ⟨[0, 5], [[7, 10]]⟩ 0 0
    (by norm_num) (by norm_num) (by norm_num) (by simp)

/-- C4: for `ProportionProcessor` with `sum_to_one = true`, in the table
returned by postprocess the component values of every row sum exactly to
the reference value of that row; the integer rounding remainder is fully
absorbed by the designated last-listed component. -/
theorem proportion_sum_to_one_row_sum (P : ProportionProcessor)
    (src dest : PropTable) (hP : P.sum_to_one = true)
    (hlen : ∀ c ∈ dest.comps, c.length = dest.ref.length)
    (j : ℕ) (hj : j < dest.ref.length) :
    ((P.postprocess src dest).comps.map (fun c => c.getD j 0)).sum =
      (P.postprocess src dest).ref.getD j 0 := by
  have hpost : P.postprocess src dest =
      ⟨dest.ref,
        (dest.comps.dropLast.map (fun c =>
          List.zipWith (fun p r => applyRound P.decimal_count (p * r)) c dest.ref)) ++
        [List.zipWith (· - ·) dest.ref
          (rowSums (dest.comps.dropLast.map (fun c =>
            List.zipWith (fun p r => applyRound P.decimal_count (p * r)) c dest.ref))
            dest.ref.length)]⟩ := by
    rw [ProportionProcessor.postprocess, if_pos hP]
  set others := dest.comps.dropLast.map (fun c =>
    List.zipWith (fun p r => applyRound P.decimal_count (p * r)) c dest.ref) with hothers
  have hlenothers : ∀ c ∈ others, c.length = dest.ref.length := by
    intro c hc
    rw [hothers] at hc
    obtain ⟨c0, hc0, rfl⟩ := List.mem_map.mp hc
    have : c0.length = dest.ref.length := hlen c0 (List.dropLast_subset _ hc0)
    rw [List.length_zipWith, this, min_self]
  have hS : (rowSums others dest.ref.length).length = dest.ref.length :=
    length_rowSums _ _ hlenothers
  rw [hpost]
  rw [List.map_append, List.sum_append, List.map_cons, List.map_nil, List.sum_cons,
    List.sum_nil, getD_zipWith_of_lt _ _ _ _ hj (by rw [hS]; exact hj) 0 0 0,
    ← getD_rowSums others dest.ref.length j hlenothers hj]
  ring

/-- C4 witness: a concrete sum-to-one postprocess with rounding at zero
decimals on a dest table whose proportions do not sum to one; the
components of the output still sum exactly to the reference. -/
theorem proportion_sum_to_one_row_sum_check :
    ((ProportionProcessor.mk true (some 0)).sum_to_one = true) ∧
    (∀ c ∈ ([[1], [2], [5]] : List (List ℚ)), c.length = ([10] : List ℚ).length) ∧
    (0 < ([10] : List ℚ).length) ∧
    ((((ProportionProcessor.mk true (some 0)).postprocess ⟨[], []⟩
        ⟨[10], [[1], [2], [5]]⟩).comps.map (fun c => c.getD 0 0)).sum =
      ((ProportionProcessor.mk true (some 0)).postprocess ⟨[], []⟩
        ⟨[10], [[1], [2], [5]]⟩).ref.getD 0 0) := by
  have hlen : ∀ c ∈ ([[1], [2], [5]] : List (List ℚ)), c.length = ([10] : List ℚ).length := by
    intro c hc
    fin_cases hc <;> rfl
  exact ⟨rfl, hlen, by norm_num,
    proportion_sum_to_one_row_sum ⟨true, some 0⟩ ⟨[], []⟩ ⟨[10], [[1], [2], [5]]⟩
      rfl hlen 0 (by norm_num)⟩

/-- C5 counterexample: on a dest row with reference 10 and avatarized
remainder -1 (a negative remainder), the restored target is 10 — the
remainder is clipped to zero and the target capped at the reference — and
is neither the raw difference 10 - (-1) = 11 the claim begins with nor the
zero the claim says the result is clipped to. -/
theorem reldiff_negative_remainder_counterexample :
    ((RelativeDifferenceProcessor.postprocess ⟨[10], [-1]⟩ ⟨[10], [-1]⟩).target =
      [10]) ∧ ((10 : ℚ) ≠ 10 - (-1)) ∧ ((10 : ℚ) ≠ 0) := by
  refine ⟨?_, by norm_num, by norm_num⟩
  simp only [RelativeDifferenceProcessor.postprocess,
    RelativeDifferenceProcessor.restore, List.zipWith]
  rw [show ((10 : ℚ) - (-1)) = 11 by norm_num,
    max_eq_right (by norm_num : (0 : ℚ) ≤ 11),
    min_eq_left (by norm_num : (10 : ℚ) ≤ 11)]

/-- C5 (amended): `RelativeDifferenceProcessor.postprocess` restores the
target as reference_avatarized minus remainder_avatarized when the
avatarized remainder lies between zero and the reference, clips the
restored value at zero when the raw difference would be negative, yields
the reference itself when the avatarized remainder would be negative, and
for every row of every dest table the restored target never exceeds the
restored reference. -/
theorem reldiff_postprocess_bounds (src dest : RelTable) (j : ℕ)
    (hjr : j < dest.ref.length) (hjt : j < dest.target.length) :
    ((RelativeDifferenceProcessor.postprocess src dest).target.getD j 0 ≤
      dest.ref.getD j 0) ∧
    (0 ≤ dest.target.getD j 0 → dest.target.getD j 0 ≤ dest.ref.getD j 0 →
      (RelativeDifferenceProcessor.postprocess src dest).target.getD j 0 =
        dest.ref.getD j 0 - dest.target.getD j 0) ∧
    (dest.target.getD j 0 ≤ 0 → 0 ≤ dest.ref.getD j 0 →
      (RelativeDifferenceProcessor.postprocess src dest).target.getD j 0 =
        dest.ref.getD j 0) ∧
    (dest.ref.getD j 0 ≤ dest.target.getD j 0 → 0 ≤ dest.ref.getD j 0 →
      (RelativeDifferenceProcessor.postprocess src dest).target.getD j 0 = 0) := by
  have hout : (RelativeDifferenceProcessor.postprocess src dest).target.getD j 0 =
      RelativeDifferenceProcessor.restore (dest.ref.getD j 0)
        (dest.target.getD j 0) := by
    show (List.zipWith RelativeDifferenceProcessor.restore dest.ref
        dest.target).getD j 0 = _
    rw [getD_zipWith_of_lt _ _ _ _ hjr hjt 0 0 0]
  rw [hout, RelativeDifferenceProcessor.restore]
  refine ⟨min_le_left _ _, fun h0 hr => ?_, fun hneg h0 => ?_, fun hge h0 => ?_⟩
  · rw [max_eq_right (by linarith), min_eq_right (by linarith)]
  · rw [max_eq_right (by linarith), min_eq_left (by linarith)]
  · rw [max_eq_left (by linarith), min_eq_right h0]

/-- C5 witness: the bounds at a concrete dest row (reference 10,
remainder 3): the restored target is at most the reference, and equals
10 - 3 = 7 in the no-clip case. -/
theorem reldiff_postprocess_bounds_check :
    (0 < (([10] : List ℚ)).length) ∧ (0 < (([3] : List ℚ)).length) ∧
    ((RelativeDifferenceProcessor.postprocess ⟨[10], [3]⟩ ⟨[10], [3]⟩).target.getD 0 0 ≤
      ([10] : List ℚ).getD 0 0) ∧
    ((RelativeDifferenceProcessor.postprocess ⟨[10], [3]⟩ ⟨[10], [3]⟩).target.getD 0 0 =
      ([10] : List ℚ).getD 0 0 - ([3] : List ℚ).getD 0 0) := by
  have h := reldiff_postprocess_bounds ⟨[10], [3]⟩ ⟨[10], [3]⟩ 0
    (by norm_num) (by norm_num)
  exact ⟨by norm_num, by norm_num, h.1,
    h.2.1 (by norm_num [List.getD_cons_zero]) (by norm_num [List.getD_cons_zero])⟩

/-- C6 helper: when no queried status is terminal within the fuel budget,
the poll call ends with the still-running signal. -/
theorem poll_stillRunning_of_nonterminal (server : ℕ → JobStatus) :
    ∀ (fuel start : ℕ),
      (∀ k, start ≤ k → k < start + fuel → (server k).isTerminal = false) →
      poll server start fuel = .stillRunning := by
  intro fuel
  induction fuel with
  | zero => intro start _; rfl
  | succ fuel ih =>
      intro start h
      have hs : (server start).isTerminal = false := h start le_rfl (by omega)
      show (if (server start).isTerminal then PollOutcome.finished (server start)
        else poll server (start + 1) fuel) = PollOutcome.stillRunning
      rw [hs]
      simp only [Bool.false_eq_true, if_false]
      exact ih (start + 1) (fun k hk1 hk2 => h k (by omega) (by omega))

/-- C6 helper: when the job becomes terminal at step `n` within the fuel
budget, the poll call returns that terminal status. -/
theorem poll_reaches_terminal (server : ℕ → JobStatus) (n : ℕ) :
    ∀ (fuel start : ℕ), start ≤ n → n < start + fuel →
      (∀ k, start ≤ k → k < n → (server k).isTerminal = false) →
      (server n).isTerminal = true →
      poll server start fuel = .finished (server n) := by
  intro fuel
  induction fuel with
  | zero => intro start h1 h2; omega
  | succ fuel ih =>
      intro start h1 h2 h3 h4
      show (if (server start).isTerminal then PollOutcome.finished (server start)
        else poll server (start + 1) fuel) = PollOutcome.finished (server n)
      by_cases hs : start = n
      · subst hs
        rw [h4]
        simp
      · have hlt : start < n := lt_of_le_of_ne h1 hs
        have hnt : (server start).isTerminal = false := h3 start le_rfl hlt
        rw [hnt]
        simp only [Bool.false_eq_true, if_false]
        exact ih (start + 1) (by omega) (by omega)
          (fun k hk1 hk2 => h3 k (by omega) hk2) h4

/-- C6: when the global timeout (a fuel budget of status queries) elapses
while the remote job is still running, `poll` returns the still-running
signal rather than an error; the job keeps running server-side, and a
subsequent `poll` call with a fresh budget retrieves the success result. -/
theorem poll_global_timeout_resumable (server : ℕ → JobStatus)
    (n fuel fuel2 : ℕ)
    (hrun : ∀ k, k < n → (server k).isTerminal = false)
    (hdone : server n = .success)
    (h1 : fuel ≤ n) (h2 : n < fuel + fuel2) :
    poll server 0 fuel = .stillRunning ∧
      poll server fuel fuel2 = .finished .success := by
  constructor
  · exact poll_stillRunning_of_nonterminal server fuel 0
      (fun k _ hk2 => hrun k (by omega))
  · have h := poll_reaches_terminal server n fuel2 fuel h1 (by omega)
      (fun k _ hk2 => hrun k hk2) (by rw [hdone]; rfl)
    rw [h, hdone]

/-- C6 witness: a server that stays running for seven steps and then
succeeds; a poll budget of five queries returns still-running, and a
second five-query poll starting where the first stopped returns
success. -/
theorem poll_global_timeout_resumable_check :
    (∀ k, k < 7 →
      ((fun t => if t < 7 then JobStatus.running else JobStatus.success) k).isTerminal
        = false) ∧
    (poll (fun t => if t < 7 then JobStatus.running else JobStatus.success) 0 5 =
      .stillRunning ∧
     poll (fun t => if t < 7 then JobStatus.running else JobStatus.success) 5 5 =
      .finished .success) := by
  have hrun : ∀ k, k < 7 →
      ((fun t => if t < 7 then JobStatus.running else JobStatus.success) k).isTerminal
        = false := by
    intro k hk
    simp only [if_pos hk]
    rfl
  exact ⟨hrun, poll_global_timeout_resumable _ 7 5 5 hrun (by norm_num)
    (by norm_num) (by norm_num)⟩

/-- C7: `PerturbationProcessor.postprocess` returns, for each targeted
numeric column, the interpolation `level * dest + (1 - level) * source`
per row, so that level 0 returns the column identical to the source
regardless of dest and level 1 returns the avatarized column unchanged;
for a categorical column the output of each row is a Bernoulli random
choice between the source and dest values, picking the dest value exactly
when the uniform draw of that row is below the level. -/
theorem perturbation_postprocess_blend (level : ℚ) (src dest us : List ℚ)
    (cs cd : List String)
    (hnum : dest.length = src.length) (hus : us.length = cs.length)
    (hcd : cd.length = cs.length) :
    (PerturbationProcessor.preprocess src = src) ∧
    (∀ j, j < src.length → j < dest.length →
      (PerturbationProcessor.postNum level src dest).getD j 0 =
        level * dest.getD j 0 + (1 - level) * src.getD j 0) ∧
    (PerturbationProcessor.postNum 0 src dest = src) ∧
    (PerturbationProcessor.postNum 1 src dest = dest) ∧
    (∀ j, j < us.length → j < cs.length → j < cd.length →
      (PerturbationProcessor.postCat level us cs cd).getD j "" =
        if us.getD j 0 < level then cd.getD j "" else cs.getD j "") ∧
    ((∀ u ∈ us, 0 ≤ u) → PerturbationProcessor.postCat 0 us cs cd = cs) ∧
    ((∀ u ∈ us, u < 1) → PerturbationProcessor.postCat 1 us cs cd = cd) := by
  refine ⟨rfl, fun j h1 h2 => ?_,
    zipWith_proj_left _ src dest (fun s d => by ring) hnum,
    zipWith_proj_right _ src dest (fun s d => by ring) hnum,
    fun j h1 h2 h3 => getD_postCat level us cs cd j h1 h2 h3,
    fun hu => postCat_level_zero us cs cd hu hus hcd,
    fun hu => postCat_level_one us cs cd hu hus hcd⟩
  show (List.zipWith (fun s d => level * d + (1 - level) * s) src dest).getD j 0 = _
  rw [getD_zipWith_of_lt _ _ _ _ h1 h2 0 0 0]

/-- C7 witness: at level 0 the numeric postprocess reproduces the source
column, at level 1 the dest column; a draw below the level picks the dest
category. -/
theorem perturbation_postprocess_blend_check :
    (([8] : List ℚ).length = ([4] : List ℚ).length) ∧
    (([1, 4] : List ℚ).length = (([4, 7] : List ℚ)).length) ∧
    (PerturbationProcessor.postNum 0 [4] [8] = [4]) ∧
    (PerturbationProcessor.postNum 1 [4] [8] = [8]) :=
  ⟨rfl, rfl,
    (perturbation_postprocess_blend 0 [4] [8] [] [] [] rfl rfl rfl).2.2.1,
    (perturbation_postprocess_blend 1 [4] [8] [] [] [] rfl rfl rfl).2.2.2.1⟩

/-- C9: `ExpectedMeanProcessor.preprocess` returns its input table
unchanged, and postprocess rescales the avatarized target values so that,
within every group of the grouping key present in the avatarized table,
the mean of the target column equals the mean computed from the original
table exactly; with `same_std` set (affine rescaling by the std ratio,
passed as the factor `f` with `f g ^ 2 * groupVar dest g = groupVar src g`)
the variance, hence the standard deviation, matches as well. -/
theorem expected_mean_postprocess_matches {G : Type} [DecidableEq G]
    (src dest : List (G × ℚ)) (g : G) (hg : groupVals dest g ≠ []) :
    (∀ t : List (G × ℚ), ExpectedMeanProcessor.preprocess t = t) ∧
    (groupMean (ExpectedMeanProcessor.postprocess src dest) g = groupMean src g) ∧
    (∀ f : G → ℚ,
      groupMean (ExpectedMeanProcessor.postprocessStd f src dest) g =
        groupMean src g ∧
      (f g ^ 2 * groupVar dest g = groupVar src g →
        groupVar (ExpectedMeanProcessor.postprocessStd f src dest) g =
          groupVar src g)) := by
  have hvals : groupVals (ExpectedMeanProcessor.postprocess src dest) g =
      (groupVals dest g).map
        (fun x => x - groupMean dest g + groupMean src g) :=
    groupVals_map_eq dest
      (fun γ x => x - groupMean dest γ + groupMean src γ) g
  refine ⟨fun t => rfl, ?_, fun f => ?_⟩
  · have hshape : (fun x => x - groupMean dest g + groupMean src g) =
        (fun x => (x - groupMean dest g) * 1 + groupMean src g) := by
      funext x
      ring
    calc groupMean (ExpectedMeanProcessor.postprocess src dest) g
        = (groupVals (ExpectedMeanProcessor.postprocess src dest) g).sum /
          ((groupVals (ExpectedMeanProcessor.postprocess src dest) g).length : ℚ) :=
          rfl
      _ = groupMean src g := by
          rw [hvals, hshape]
          exact mean_map_affine (groupVals dest g) hg (groupMean dest g) 1
            (groupMean src g) rfl
  · have hvals2 : groupVals (ExpectedMeanProcessor.postprocessStd f src dest) g =
        (groupVals dest g).map
          (fun x => (x - groupMean dest g) * f g + groupMean src g) :=
      groupVals_map_eq dest
        (fun γ x => (x - groupMean dest γ) * f γ + groupMean src γ) g
    have hmean : groupMean (ExpectedMeanProcessor.postprocessStd f src dest) g =
        groupMean src g := by
      calc groupMean (ExpectedMeanProcessor.postprocessStd f src dest) g
          = (groupVals (ExpectedMeanProcessor.postprocessStd f src dest) g).sum /
            ((groupVals (ExpectedMeanProcessor.postprocessStd f src dest) g).length :
              ℚ) := rfl
        _ = groupMean src g := by
            rw [hvals2]
            exact mean_map_affine (groupVals dest g) hg (groupMean dest g) (f g)
              (groupMean src g) rfl
    refine ⟨hmean, fun hf => ?_⟩
    calc groupVar (ExpectedMeanProcessor.postprocessStd f src dest) g
        = ((groupVals (ExpectedMeanProcessor.postprocessStd f src dest) g).map
            (fun y =>
              (y - groupMean (ExpectedMeanProcessor.postprocessStd f src dest) g)
                ^ 2)).sum /
          ((groupVals (ExpectedMeanProcessor.postprocessStd f src dest) g).length :
            ℚ) := rfl
      _ = groupVar src g := by
          rw [hvals2, hmean,
            var_map_affine (groupVals dest g) (groupMean dest g) (f g)
              (groupMean src g),
            List.length_map, mul_div_assoc]
          exact hf

/-- C9 witness: a two-row group with original values 1, 3 and avatarized
values 10, 14; the mean-only postprocess restores the original group
mean. -/
theorem expected_mean_postprocess_matches_check :
    (groupVals ([((0 : ℕ), (10 : ℚ)), (0, 14)]) 0 ≠ []) ∧
    (groupMean
        (ExpectedMeanProcessor.postprocess [((0 : ℕ), (1 : ℚ)), (0, 3)]
          [((0 : ℕ), (10 : ℚ)), (0, 14)]) 0 =
      groupMean ([((0 : ℕ), (1 : ℚ)), (0, 3)]) 0) :=
  ⟨by decide,
    (expected_mean_postprocess_matches [((0 : ℕ), (1 : ℚ)), (0, 3)]
      [((0 : ℕ), (10 : ℚ)), (0, 14)] 0 (by decide)).2.1⟩

/-- C10: `GroupModalitiesProcessor.preprocess` on a column is idempotent —
a second application with the same settings yields the same column with no
further reduction — and concretely, with `min_unique = 3` and
`global_threshold = 2`, the column `["A", "A", "B", "C", "D"]` becomes
`["A", "A", "other", "other", "other"]`, which a second application leaves
unchanged. -/
theorem group_modalities_idempotent :
    (∀ (P : GroupModalitiesProcessor) (col : List String),
      P.preprocessCol (P.preprocessCol col) = P.preprocessCol col) ∧
    (GroupModalitiesProcessor.preprocessCol ⟨3, 2, "other"⟩
        ["A", "A", "B", "C", "D"] = ["A", "A", "other", "other", "other"]) ∧
    (GroupModalitiesProcessor.preprocessCol ⟨3, 2, "other"⟩
        ["A", "A", "other", "other", "other"] =
      ["A", "A", "other", "other", "other"]) := by
  refine ⟨fun P col => ?_, by decide, by decide⟩
  by_cases hd : P.min_unique < col.dedup.length
  · have hcol : P.preprocessCol col = col.map (P.reduceValue col) := by
      rw [GroupModalitiesProcessor.preprocessCol, if_pos hd]
    rw [hcol]
    by_cases hd2 : P.min_unique < (col.map (P.reduceValue col)).dedup.length
    · rw [GroupModalitiesProcessor.preprocessCol, if_pos hd2]
      calc (col.map (P.reduceValue col)).map
              (P.reduceValue (col.map (P.reduceValue col)))
          = (col.map (P.reduceValue col)).map id :=
            List.map_congr_left (fun w hw => reduceValue_fixed_on_reduced P col w hw)
        _ = col.map (P.reduceValue col) := List.map_id _
    · rw [GroupModalitiesProcessor.preprocessCol, if_neg hd2]
  · have hcol : P.preprocessCol col = col := by
      rw [GroupModalitiesProcessor.preprocessCol, if_neg hd]
    rw [hcol, hcol]

end Avatar
